import Mathlib

/-!
Verification of the editable combo box widget (src/lib.rs, src/value.rs):
a shallow embedding of its value/option abstraction, filter pass, cursor
navigation and per-frame text-buffer protocol, with theorems checking the
design document's claims against it.

Strings are modelled as lists of characters: Rust `String`/`&str` equality
is `List Char` equality, `str::to_lowercase` is a character-wise
`Char.toLower` map (adequate on the ASCII inputs used in the witnesses;
the source and the model agree there), and `str::contains` is substring
containment.
-/

namespace EguiEditableCombobox

/-- Model of a Rust string: its list of characters. -/
abbrev Str : Type := List Char

/-- Model of `str::to_lowercase`: character-wise lowercasing. -/
def toLowercase (s : Str) : Str := s.map Char.toLower

/-- Model of `str::contains`: `strContains hay needle` holds when `needle`
occurs contiguously inside `hay` (true for the empty needle). -/
def strContains : Str → Str → Bool
  | [], needle => needle.isEmpty
  | c :: t, needle => needle.isPrefixOf (c :: t) || strContains t needle

/-- FilterResult (value.rs:41-48): whether the user text fully or partially
matched an option. -/
inductive FilterResult : Type where
  | Exact : FilterResult
  | Partial : FilterResult
  | None : FilterResult
deriving DecidableEq

/-- FilterResult::from_case_insensitive_substring (value.rs:52-64): exact
(case-sensitive) equality gives Exact, otherwise a case-insensitive
substring occurrence gives Partial, otherwise None. -/
def FilterResult.from_case_insensitive_substring (full input : Str) : FilterResult :=
  if full = input then FilterResult.Exact
  else if strContains (toLowercase full) (toLowercase input) then FilterResult.Partial
  else FilterResult.None

/-- FilterState (value.rs:69-74): accumulated state over the options
filtered before the current one in one `show` call. -/
structure FilterState : Type where
  prev_matches : Nat
  had_exact : Bool
deriving DecidableEq

/-- Shallow embedding of the `ValueOption<V>` trait (value.rs:23-38) as a
record of its methods (`display` is presentational only and is omitted). -/
structure ValueOption (V : Type) : Type where
  filter_by_text : Str → FilterState → FilterResult
  into_value : Str → V
  equals_value : V → Str → Bool

/-- Shallow embedding of the `Value` trait (value.rs:7-13). -/
structure Value (V : Type) : Type where
  to_editable : V → Str

/-- Value for String (value.rs:15-17): `to_editable` clones the string. -/
def stringValue : Value Str := ⟨fun s => s⟩

/-- ValueOption of String for String (value.rs:76-86). -/
def stringOption (s : Str) : ValueOption Str where
  filter_by_text := fun text _ => FilterResult.from_case_insensitive_substring s text
  into_value := fun _ => s
  equals_value := fun value _ => decide (s = value)

/-- ValueOption of String for &str (value.rs:88-98): `into_value` is
`to_string`, which in this model is the same character list. -/
def strOption (s : Str) : ValueOption Str where
  filter_by_text := fun text _ => FilterResult.from_case_insensitive_substring s text
  into_value := fun _ => s
  equals_value := fun value _ => decide (s = value)

/-- ValueOption for ParseDisplayValue (value.rs:107-123). The wrapped type
`T` carries its `Display` rendering as `toStr` and `PartialEq` as
decidable equality; the `ParseDisplayValue` wrapper itself is identity. -/
def parseDisplayOption {T : Type} [DecidableEq T] (toStr : T → Str) (x : T) : ValueOption T where
  filter_by_text := fun text _ => FilterResult.from_case_insensitive_substring (toStr x) text
  into_value := fun _ => x
  equals_value := fun value _ => decide (x = value)

/-- CustomValue (value.rs:130-135): either one of the given options or a
custom value entered by the user. -/
inductive CustomValue (V : Type) : Type where
  | Value : V → CustomValue V
  | Custom : Str → CustomValue V

/-- Value for CustomValue (value.rs:137-144). -/
def customValueImpl {V : Type} (vi : Value V) : Value (CustomValue V) where
  to_editable := fun v =>
    match v with
    | CustomValue.Value v => vi.to_editable v
    | CustomValue.Custom s => s

/-- CustomOption (value.rs:149-157): an existing option or the trailing
"Custom" pseudo-option. -/
inductive CustomOption (Opt : Type) : Type where
  | Value : Opt → CustomOption Opt
  | Custom : CustomOption Opt

/-- ValueOption of CustomValue for CustomOption (value.rs:177-213). The
Custom pseudo-option is None after a preceding exact match, Partial after
any preceding match, and Exact otherwise. -/
def CustomOption.valueOption {V : Type} :
    CustomOption (ValueOption V) → ValueOption (CustomValue V)
  | CustomOption.Value v =>
    { filter_by_text := v.filter_by_text
      into_value := fun text => CustomValue.Value (v.into_value text)
      equals_value := fun value text =>
        match value with
        | CustomValue.Value that => v.equals_value that text
        | CustomValue.Custom _ => false }
  | CustomOption.Custom =>
    { filter_by_text := fun _ state =>
        if state.had_exact then FilterResult.None
        else if state.prev_matches > 0 then FilterResult.Partial
        else FilterResult.Exact
      into_value := fun text => CustomValue.Custom text
      equals_value := fun value text =>
        match value with
        | CustomValue.Value _ => false
        | CustomValue.Custom custom => decide (text = custom) }

/-- Substring containment always holds for the empty needle. -/
theorem strContains_nil (hay : Str) : strContains hay [] = true := by
  cases hay with
  | nil => rfl
  | cons c t => simp [strContains, List.isPrefixOf]

/-- A string contains itself. -/
theorem strContains_self (s : Str) : strContains s s = true := by
  cases s with
  | nil => rfl
  | cons c t => simp [strContains, List.isPrefixOf_iff_prefix]

/-- DisplayedOption (lib.rs:226-230): an option retained after filtering,
with its source index and equality-to-current-value flag. -/
structure DisplayedOption (V : Type) : Type where
  source_index : Nat
  option : ValueOption V
  equals : Bool

/-- Result of the filtering loop of show_options (lib.rs:105-129): the
retained options, the default cursor position found while scanning, the
final `had_exact` flag, and (as instrumentation) the `FilterResult`
computed for each candidate in order. -/
structure PassResult (V : Type) : Type where
  filtered : List (DisplayedOption V)
  default_cursor_pos : Option Nat
  had_exact : Bool
  results : List FilterResult

/-- The filtering loop of show_options (lib.rs:105-129), processing the
remaining options. `source_index` is the enumeration index of the first
remaining option, `prev_matches` the length of the `filtered` vector built
so far (the loop passes `filtered.len()`), `had_exact` and
`default_cursor_pos` the loop state so far. The returned `filtered` and
`results` are the part contributed by the remaining options. -/
def show_options_loop {V : Type} (selection : V) (text : Str) (gained_focus : Bool) :
    List (ValueOption V) → Nat → Nat → Bool → Option Nat → PassResult V
  | [], _, _, had_exact, dcp => ⟨[], dcp, had_exact, []⟩
  | o :: rest, source_index, prev_matches, had_exact, dcp =>
    let equals := o.equals_value selection text
    let dcp1 := if gained_focus && equals then some source_index else dcp
    match o.filter_by_text text ⟨prev_matches, had_exact⟩ with
    | FilterResult.Partial =>
      let next := show_options_loop selection text gained_focus rest
        (source_index + 1) (prev_matches + 1) had_exact dcp1
      ⟨⟨source_index, o, equals⟩ :: next.filtered, next.default_cursor_pos,
        next.had_exact, FilterResult.Partial :: next.results⟩
    | FilterResult.Exact =>
      let next := show_options_loop selection text gained_focus rest
        (source_index + 1) (prev_matches + 1) true dcp1
      ⟨⟨source_index, o, equals⟩ :: next.filtered, next.default_cursor_pos,
        next.had_exact, FilterResult.Exact :: next.results⟩
    | FilterResult.None =>
      let next := show_options_loop selection text gained_focus rest
        (source_index + 1) prev_matches had_exact dcp1
      ⟨next.filtered, next.default_cursor_pos, next.had_exact,
        FilterResult.None :: next.results⟩

/-- One whole filtering pass of show_options (lib.rs:105-129), started with
an empty `filtered` vector, `had_exact = false` and no default cursor. -/
def show_options_pass {V : Type} (selection : V) (text : Str) (gained_focus : Bool)
    (options : List (ValueOption V)) : PassResult V :=
  show_options_loop selection text gained_focus options 0 0 false none

/-- Cursor resolution of show_options (lib.rs:131-136): the seeded default
cursor, else the persisted cursor, else source index 0. -/
def initial_cursor (default_cursor_pos persisted : Option Nat) : Nat :=
  (default_cursor_pos.orElse (fun _ => persisted)).getD 0

/-- Source indices of a filtered list. The cursor computations of lib.rs
read only the `source_index` field of each `DisplayedOption`, so they are
modelled on this projection. -/
def srcIndices {V : Type} (filtered : List (DisplayedOption V)) : List Nat :=
  filtered.map DisplayedOption.source_index

/-- Number of leading elements satisfying `p`: the value
`slice::partition_point` returns. The slice method binary-searches and its
contract assumes a partitioned slice; every use in lib.rs applies it to the
filtered list, whose source indices are strictly increasing, with a
monotone predicate, where the binary search returns exactly the length of
the satisfying prefix computed here. -/
def partition_point {α : Type} (p : α → Bool) : List α → Nat
  | [] => 0
  | x :: t => if p x then partition_point p t + 1 else 0

/-- Display position of the cursor (lib.rs:141-149): the partition point of
`source_index < cursor`, clamped to the last entry when it falls past the
end of a nonempty filtered list. -/
def cursor_filtered_index (srcs : List Nat) (cursor : Nat) : Nat :=
  if srcs.length ≤ partition_point (fun s => decide (s < cursor)) srcs then
    match srcs.length with
    | 0 => partition_point (fun s => decide (s < cursor)) srcs
    | n + 1 => n
  else partition_point (fun s => decide (s < cursor)) srcs

/-- Motion (lib.rs:242-247): the keyboard motions recognized by
move_cursor_pos. -/
inductive Motion : Type where
  | Home : Motion
  | End : Motion
  | Up : Motion
  | Down : Motion
deriving DecidableEq

/-- move_cursor_pos (lib.rs:237-294) on the source indices of the displayed
options: `none` models a frame with no motion key pressed (lib.rs:249-260
returns early), leaving the cursor unchanged. -/
def move_cursor_pos (motion : Option Motion) (displayed_options : List Nat)
    (cursor : Nat) : Nat :=
  match motion with
  | none => cursor
  | some Motion.Home =>
    match displayed_options.head? with
    | some first => first
    | none => cursor
  | some Motion.End =>
    match displayed_options.getLast? with
    | some last => last
    | none => cursor
  | some Motion.Up =>
    let pp := partition_point (fun s => decide (s < cursor)) displayed_options
    match (match pp with | 0 => none | q + 1 => displayed_options.get? q) with
    | some s => s
    | none =>
      match displayed_options.getLast? with
      | some last => last
      | none => cursor
  | some Motion.Down =>
    let pp := partition_point (fun s => decide (s ≤ cursor)) displayed_options
    match displayed_options.get? pp with
    | some s => s
    | none =>
      match displayed_options.head? with
      | some first => first
      | none => cursor

/-- Focus flags of the text edit response used by show (lib.rs:65-79). -/
structure Response : Type where
  has_focus : Bool
  lost_focus : Bool
  gained_focus : Bool

/-- Invariant egui guarantees on a response: a widget that gained keyboard
focus this frame holds keyboard focus this frame. -/
def Response.Wf (r : Response) : Prop := r.gained_focus = true → r.has_focus = true

/-- Text reconciliation of show (lib.rs:65-77): with the field idle the
buffer is forced back to the hint, on focus gain it is cleared, otherwise
it is kept. Its value is both the text show_options filters against
(lib.rs:80) and the buffer store_text_buf persists (lib.rs:88); the text is
not written again between the reconciliation and the store. -/
def reconcile_text (hint text : Str) (resp : Response) : Str :=
  if !resp.has_focus && !resp.lost_focus then
    if text ≠ hint then hint else text
  else if resp.gained_focus then []
  else text

/-- The text buffer persisted at the end of one show frame (lib.rs:61-91):
`stored` is the buffer persisted by the previous frame (load_text_buf
defaults to the hint when absent, lib.rs:209-212) and `edited` models what
the TextEdit widget leaves in the buffer after user interaction. -/
def show_stored_text {V : Type} (vi : Value V) (value : V) (stored : Option Str)
    (edited : Str → Str) (resp : Response) : Str :=
  let hint := vi.to_editable value
  reconcile_text hint (edited (stored.getD hint)) resp

/-- Selection commit of show_options (lib.rs:184-191): on click or Enter on
the cursor row the bound value is overwritten with `into_value` of the
committed displayed option against the current text. -/
def commit_selection {V : Type} (displayed : DisplayedOption V) (text : Str) : V :=
  displayed.option.into_value text

/-- Case analysis of the filter against the empty text: the case-sensitive
equality test succeeds only for the empty option text, and every other
option text contains the empty needle after lowercasing. -/
theorem from_case_insensitive_substring_nil (s : Str) :
    FilterResult.from_case_insensitive_substring s [] =
      if s = [] then FilterResult.Exact else FilterResult.Partial := by
  unfold FilterResult.from_case_insensitive_substring
  by_cases h : s = [] <;> simp [h, toLowercase, strContains_nil]

/-- C1, counterexample: the claim says Exact is returned iff the option's
text case-insensitively equals the typed text, but for option text "A" and
typed text "a" — case-insensitively equal — the code's case-sensitive
equality test fails and the result is Partial, not Exact. -/
theorem c1_case_insensitive_equal_is_partial :
    toLowercase [Char.ofNat 65] = toLowercase [Char.ofNat 97] ∧
    FilterResult.from_case_insensitive_substring [Char.ofNat 65] [Char.ofNat 97] =
      FilterResult.Partial := by
  constructor
  · rfl
  · rfl

/-- C1, amended: for the built-in String, &str and ParseDisplayValue
options `filter_by_text` is `from_case_insensitive_substring` of the
option's own text against the typed text, and that returns Exact iff the
two texts are exactly (case-sensitively) equal, Partial iff they are not
exactly equal but the lowercased option text contains the lowercased typed
text, and None otherwise. -/
theorem c1_filter_characterization (s t : Str) :
    (∀ st : FilterState, (stringOption s).filter_by_text t st =
        FilterResult.from_case_insensitive_substring s t) ∧
    (∀ st : FilterState, (strOption s).filter_by_text t st =
        FilterResult.from_case_insensitive_substring s t) ∧
    (∀ (T : Type) [DecidableEq T] (toStr : T → Str) (x : T) (st : FilterState),
        (parseDisplayOption toStr x).filter_by_text t st =
          FilterResult.from_case_insensitive_substring (toStr x) t) ∧
    (FilterResult.from_case_insensitive_substring s t = FilterResult.Exact ↔ s = t) ∧
    (FilterResult.from_case_insensitive_substring s t = FilterResult.Partial ↔
        s ≠ t ∧ strContains (toLowercase s) (toLowercase t) = true) ∧
    (FilterResult.from_case_insensitive_substring s t = FilterResult.None ↔
        s ≠ t ∧ strContains (toLowercase s) (toLowercase t) = false) := by
  refine ⟨fun _ => rfl, fun _ => rfl, fun _ _ _ _ _ => rfl, ?_, ?_, ?_⟩ <;>
    unfold FilterResult.from_case_insensitive_substring <;>
    by_cases h : s = t <;>
    by_cases h2 : strContains (toLowercase s) (toLowercase t) = true <;>
    simp_all

/-- C10: against the empty text no built-in option is classified None —
an option whose own text is empty is Exact, every other one is Partial —
so after a focus gain clears the buffer every real candidate is retained. -/
theorem c10_empty_text_never_none (s : Str) (st : FilterState) :
    (stringOption s).filter_by_text [] st ≠ FilterResult.None ∧
    (strOption s).filter_by_text [] st ≠ FilterResult.None ∧
    ((stringOption s).filter_by_text [] st = FilterResult.Exact ↔ s = []) ∧
    ((stringOption s).filter_by_text [] st = FilterResult.Partial ↔ s ≠ []) ∧
    (∀ (T : Type) [DecidableEq T] (toStr : T → Str) (x : T),
        (parseDisplayOption toStr x).filter_by_text [] st ≠ FilterResult.None ∧
        ((parseDisplayOption toStr x).filter_by_text [] st = FilterResult.Exact ↔
            toStr x = []) ∧
        ((parseDisplayOption toStr x).filter_by_text [] st = FilterResult.Partial ↔
            toStr x ≠ [])) := by
  have hs : ∀ u : Str, FilterResult.from_case_insensitive_substring u [] =
      if u = [] then FilterResult.Exact else FilterResult.Partial :=
    from_case_insensitive_substring_nil
  refine ⟨?_, ?_, ?_, ?_, fun T _ toStr x => ⟨?_, ?_, ?_⟩⟩ <;>
    simp only [stringOption, strOption, parseDisplayOption] <;>
    rw [hs] <;> split <;> simp_all

/-- C7: a commit overwrites the bound value with `into_value` of the
committed option against the current text, and for every built-in option
implementation (String, &str, ParseDisplayValue, and CustomOption over
any option with that property, as well as the Custom pseudo-option)
`equals_value` holds of the option, the committed value and the text. -/
theorem c7_round_trip_commit :
    (∀ (V : Type) (d : DisplayedOption V) (t : Str),
        commit_selection d t = d.option.into_value t) ∧
    (∀ s t : Str, (stringOption s).equals_value ((stringOption s).into_value t) t = true) ∧
    (∀ s t : Str, (strOption s).equals_value ((strOption s).into_value t) t = true) ∧
    (∀ (T : Type) [DecidableEq T] (toStr : T → Str) (x : T) (t : Str),
        (parseDisplayOption toStr x).equals_value
          ((parseDisplayOption toStr x).into_value t) t = true) ∧
    (∀ (V : Type) (o : ValueOption V) (t : Str),
        o.equals_value (o.into_value t) t = true →
        (CustomOption.valueOption (CustomOption.Value o)).equals_value
          ((CustomOption.valueOption (CustomOption.Value o)).into_value t) t = true) ∧
    (∀ (V : Type) (t : Str),
        (CustomOption.valueOption (V := V) CustomOption.Custom).equals_value
          ((CustomOption.valueOption CustomOption.Custom).into_value t) t = true) := by
  refine ⟨fun _ _ _ => rfl, ?_, ?_, ?_, ?_, ?_⟩
  · intro s t; simp [stringOption]
  · intro s t; simp [strOption]
  · intro T _ toStr x t; simp [parseDisplayOption]
  · intro V o t h; simpa [CustomOption.valueOption] using h
  · intro V t; simp [CustomOption.valueOption]

/-- The partition point never exceeds the list length. -/
theorem partition_point_le_length {α : Type} (p : α → Bool) (l : List α) :
    partition_point p l ≤ l.length := by
  induction l with
  | nil => simp [partition_point]
  | cons x t ih => by_cases h : p x <;> simp [partition_point, h] <;> omega

/-- On a strictly sorted list with a predicate that is downward closed
along the order — the shape of both partition-point calls in lib.rs — the
satisfying elements form the prefix of length `partition_point` and the
rest form the suffix. -/
theorem partition_point_take_drop (q : Nat → Bool) (l : List Nat)
    (hs : List.Pairwise (· < ·) l)
    (hq : ∀ a b : Nat, a < b → q b = true → q a = true) :
    l.take (partition_point q l) = l.filter q ∧
    l.drop (partition_point q l) = l.filter (fun s => !(q s)) := by
  induction l with
  | nil => simp [partition_point]
  | cons x t ih =>
    obtain ⟨hx, ht⟩ := List.pairwise_cons.mp hs
    by_cases h : q x = true
    · obtain ⟨h1, h2⟩ := ih ht
      simp [partition_point, h, List.filter_cons, h1, h2]
    · have hf : q x = false := by simpa using h
      have hall : ∀ s ∈ x :: t, q s = false := by
        intro s hsm
        rcases List.mem_cons.mp hsm with rfl | hsm
        · exact hf
        · cases hqs : q s with
          | false => rfl
          | true => exact absurd (hq x s (hx s hsm) hqs) h
      have hpp : partition_point q (x :: t) = 0 := by simp [partition_point, hf]
      constructor
      · rw [hpp, List.take_zero]
        symm
        rw [List.filter_eq_nil_iff]
        intro a ha
        simp [hall a ha]
      · rw [hpp, List.drop_zero]
        symm
        rw [List.filter_eq_self]
        intro a ha
        simp [hall a ha]

/-- C3: on a nonempty filtered list (sorted as the filter pass produces it)
the display position is in range, every entry before it has source index
below the cursor, the entry at it has source index at or above the cursor
whenever some entry does, the position clamps to the last entry when every
source index is below the cursor, and when the cursor's own source index is
present the entry at the display position is exactly it. -/
theorem c3_display_position (srcs : List Nat) (cursor : Nat)
    (hne : srcs ≠ []) (hsorted : List.Pairwise (· < ·) srcs) :
    cursor_filtered_index srcs cursor < srcs.length ∧
    (∀ s ∈ srcs.take (cursor_filtered_index srcs cursor), s < cursor) ∧
    ((∃ s ∈ srcs, cursor ≤ s) →
        cursor ≤ srcs.getD (cursor_filtered_index srcs cursor) 0) ∧
    ((∀ s ∈ srcs, s < cursor) →
        cursor_filtered_index srcs cursor = srcs.length - 1) ∧
    (cursor ∈ srcs →
        srcs.getD (cursor_filtered_index srcs cursor) 0 = cursor) := by
  obtain ⟨htake, hdrop⟩ := partition_point_take_drop (fun s => decide (s < cursor)) srcs
    hsorted (fun a b hab hb => by simp at hb ⊢; omega)
  by_cases hex : ∃ s ∈ srcs, cursor ≤ s
  · obtain ⟨s0, hs0mem, hs0⟩ := hex
    have hdropne : srcs.drop (partition_point (fun s => decide (s < cursor)) srcs) ≠ [] := by
      rw [hdrop]
      intro hnil
      rw [List.filter_eq_nil_iff] at hnil
      exact hnil s0 hs0mem (by simp; omega)
    have hplt : partition_point (fun s => decide (s < cursor)) srcs < srcs.length := by
      rcases Nat.lt_or_ge (partition_point (fun s => decide (s < cursor)) srcs)
        srcs.length with h | h
      · exact h
      · exact absurd (List.drop_eq_nil_of_le h) hdropne
    have hd : cursor_filtered_index srcs cursor =
        partition_point (fun s => decide (s < cursor)) srcs := by
      unfold cursor_filtered_index
      rw [if_neg (by omega)]
    obtain ⟨a, rest, hcons⟩ := List.exists_cons_of_ne_nil hdropne
    have hget : srcs.get? (partition_point (fun s => decide (s < cursor)) srcs) = some a := by
      rw [show srcs.get? (partition_point (fun s => decide (s < cursor)) srcs) =
          (srcs.drop (partition_point (fun s => decide (s < cursor)) srcs)).get? 0 by
        rw [List.get?_drop, Nat.add_zero]]
      rw [hcons]
      rfl
    have hgetD : srcs.getD (cursor_filtered_index srcs cursor) 0 = a := by
      rw [hd, List.getD_eq_get?, hget]
      rfl
    have hamem : a ∈ srcs.filter (fun s => !(decide (s < cursor))) := by
      rw [← hdrop, hcons]
      exact List.mem_cons_self a rest
    have hcle : cursor ≤ a := by
      obtain ⟨-, hpa⟩ := List.mem_filter.mp hamem
      simp at hpa
      omega
    refine ⟨hd ▸ hplt, ?_, fun _ => hgetD ▸ hcle, ?_, ?_⟩
    · intro s hsmem
      rw [hd, htake] at hsmem
      obtain ⟨-, hps⟩ := List.mem_filter.mp hsmem
      simpa using hps
    · intro hall
      exact absurd (hall s0 hs0mem) (by omega)
    · intro hcur
      have hcmem : cursor ∈ srcs.filter (fun s => !(decide (s < cursor))) :=
        List.mem_filter.mpr ⟨hcur, by simp⟩
      rw [← hdrop, hcons] at hcmem
      have hpw : List.Pairwise (· < ·)
          (srcs.filter (fun s => !(decide (s < cursor)))) :=
        List.Pairwise.filter _ hsorted
      rw [← hdrop, hcons] at hpw
      obtain ⟨hhead, -⟩ := List.pairwise_cons.mp hpw
      rcases List.mem_cons.mp hcmem with rfl | hrest
      · exact hgetD
      · exact absurd (hhead cursor hrest) (by omega)
  · have hall : ∀ s ∈ srcs, s < cursor := by
      intro s hsmem
      by_contra hge
      exact hex ⟨s, hsmem, by omega⟩
    have hdropnil : srcs.drop (partition_point (fun s => decide (s < cursor)) srcs) = [] := by
      rw [hdrop, List.filter_eq_nil_iff]
      intro a ha
      simp [hall a ha]
    have hpge : srcs.length ≤ partition_point (fun s => decide (s < cursor)) srcs := by
      rw [List.drop_eq_nil_iff] at hdropnil
      exact hdropnil
    obtain ⟨x, t, rfl⟩ := List.exists_cons_of_ne_nil hne
    have hd : cursor_filtered_index (x :: t) cursor = (x :: t).length - 1 := by
      unfold cursor_filtered_index
      rw [if_pos hpge]
      rfl
    refine ⟨?_, ?_, ?_, fun _ => hd, ?_⟩
    · rw [hd]
      simp
    · intro s hsmem
      exact hall s (List.take_subset _ _ hsmem)
    · intro hex2
      exact absurd hex2 hex
    · intro hcur
      exact absurd (hall cursor hcur) (by omega)

/-- C3, witness at the filtered source indices 0, 2, 4 with the cursor on
source index 2 (present in the list: its display position is its own
entry). -/
theorem c3_display_position_witness :
    cursor_filtered_index [0, 2, 4] 2 < ([0, 2, 4] : List Nat).length ∧
    (∀ s ∈ ([0, 2, 4] : List Nat).take (cursor_filtered_index [0, 2, 4] 2), s < 2) ∧
    ((∃ s ∈ ([0, 2, 4] : List Nat), 2 ≤ s) →
        2 ≤ ([0, 2, 4] : List Nat).getD (cursor_filtered_index [0, 2, 4] 2) 0) ∧
    ((∀ s ∈ ([0, 2, 4] : List Nat), s < 2) →
        cursor_filtered_index [0, 2, 4] 2 = ([0, 2, 4] : List Nat).length - 1) ∧
    (2 ∈ ([0, 2, 4] : List Nat) →
        ([0, 2, 4] : List Nat).getD (cursor_filtered_index [0, 2, 4] 2) 0 = 2) :=
  c3_display_position [0, 2, 4] 2 (by decide) (by decide)

/-- Modelled from the claim's words, for comparison with the code: a Down
motion moves the cursor to the filtered entry immediately following the
current display position, wrapping to the first filtered entry when the
display position is at or after the last, and does nothing on an empty
filtered list. -/
def claimed_move_down (srcs : List Nat) (cursor : Nat) : Nat :=
  if srcs.isEmpty then cursor
  else if cursor_filtered_index srcs cursor + 1 < srcs.length then
    srcs.getD (cursor_filtered_index srcs cursor + 1) cursor
  else srcs.getD 0 cursor

/-- C4, counterexample: with filtered source indices 0 and 4 and the cursor
at source index 2 (not present in the filtered list; its display position
is the last entry, the one with source index 4), the code's Down motion
moves the cursor to source index 4 — the first entry past the cursor in
source order — while the claim's display-position description demands a
wrap to the first entry, source index 0. -/
theorem c4_down_not_display_position :
    move_cursor_pos (some Motion.Down) [0, 4] 2 = 4 ∧
    cursor_filtered_index [0, 4] 2 = 1 ∧
    claimed_move_down [0, 4] 2 = 0 := by
  refine ⟨rfl, rfl, rfl⟩

/-- C4, amended: motions act on the cursor's source index directly rather
than on its display position. Up moves to the last filtered entry whose
source index is strictly below the cursor's, wrapping to the last entry
when there is none; Down moves to the first filtered entry whose source
index is strictly above the cursor's, wrapping to the first entry when
there is none. (When the cursor's source index is itself in the filtered
list these coincide with the claimed display-position description.) Every
motion, and a frame without one, leaves the cursor unchanged when the
filtered list is empty. -/
theorem c4_motion_characterization (srcs : List Nat) (cursor : Nat)
    (hsorted : List.Pairwise (· < ·) srcs) :
    (∀ m : Option Motion, move_cursor_pos m [] cursor = cursor) ∧
    (move_cursor_pos none srcs cursor = cursor) ∧
    (move_cursor_pos (some Motion.Home) srcs cursor = srcs.head?.getD cursor) ∧
    (move_cursor_pos (some Motion.End) srcs cursor = srcs.getLast?.getD cursor) ∧
    (move_cursor_pos (some Motion.Up) srcs cursor =
      (((srcs.filter (fun s => decide (s < cursor))).getLast?).orElse
        (fun _ => srcs.getLast?)).getD cursor) ∧
    (move_cursor_pos (some Motion.Down) srcs cursor =
      (((srcs.filter (fun s => decide (cursor < s))).head?).orElse
        (fun _ => srcs.head?)).getD cursor) := by
  refine ⟨?_, rfl, ?_, ?_, ?_, ?_⟩
  · intro m
    rcases m with - | m
    · rfl
    · cases m <;> rfl
  · simp only [move_cursor_pos]
    cases srcs <;> rfl
  · simp only [move_cursor_pos]
    cases hl : srcs.getLast? <;> rfl
  · obtain ⟨htake, hdrop⟩ := partition_point_take_drop (fun s => decide (s < cursor)) srcs
      hsorted (fun a b hab hb => by simp at hb ⊢; omega)
    simp only [move_cursor_pos]
    rcases hpp : partition_point (fun s => decide (s < cursor)) srcs with - | k
    · have hfilnil : srcs.filter (fun s => decide (s < cursor)) = [] := by
        rw [← htake, hpp, List.take_zero]
      rw [hfilnil]
      cases hl : srcs.getLast? <;> rfl
    · have hple : partition_point (fun s => decide (s < cursor)) srcs ≤ srcs.length :=
        partition_point_le_length _ _
      have hklt : k < srcs.length := by omega
      have htl : (srcs.take (k + 1)).length = k + 1 := by
        rw [List.length_take]
        omega
      have hfil : srcs.filter (fun s => decide (s < cursor)) = srcs.take (k + 1) := by
        rw [← htake, hpp]
      have hlast : (srcs.take (k + 1)).getLast? = srcs.get? k := by
        rw [List.getLast?_eq_get?, htl, Nat.add_sub_cancel, List.get?_take (by omega)]
      have hget : srcs.get? k = some (srcs.get ⟨k, hklt⟩) := List.get?_eq_get hklt
      change (match srcs.get? k with
        | some s => s
        | none =>
          match srcs.getLast? with
          | some last => last
          | none => cursor) = _
      rw [hfil, hlast, hget]
      rfl
  · have hpred : ∀ s : Nat, (!(decide (s ≤ cursor))) = decide (cursor < s) := by
      intro s
      by_cases h : s ≤ cursor
      · simp [h, Nat.not_lt.mpr h]
      · simp [h, Nat.lt_of_not_le h]
    obtain ⟨htake, hdrop⟩ := partition_point_take_drop (fun s => decide (s ≤ cursor)) srcs
      hsorted (fun a b hab hb => by simp at hb ⊢; omega)
    have hdrop2 : srcs.drop (partition_point (fun s => decide (s ≤ cursor)) srcs) =
        srcs.filter (fun s => decide (cursor < s)) := by
      rw [hdrop]
      exact List.filter_congr (fun a _ => hpred a)
    simp only [move_cursor_pos]
    rcases hget : srcs.get? (partition_point (fun s => decide (s ≤ cursor)) srcs) with - | a
    · have hlen : srcs.length ≤ partition_point (fun s => decide (s ≤ cursor)) srcs := by
        by_contra hlt
        rw [List.get?_eq_get (Nat.lt_of_not_le hlt)] at hget
        exact Option.noConfusion hget
      have hfilnil : srcs.filter (fun s => decide (cursor < s)) = [] := by
        rw [← hdrop2, List.drop_eq_nil_iff]
        exact hlen
      rw [hfilnil]
      cases hh : srcs.head? <;> rfl
    · have hhead : (srcs.filter (fun s => decide (cursor < s))).head? = some a := by
        rw [← hdrop2]
        rw [show (srcs.drop (partition_point (fun s => decide (s ≤ cursor)) srcs)).head? =
            (srcs.drop (partition_point (fun s => decide (s ≤ cursor)) srcs)).get? 0 by
          cases srcs.drop (partition_point (fun s => decide (s ≤ cursor)) srcs) <;> rfl]
        rw [List.get?_drop, Nat.add_zero]
        exact hget
      rw [hhead]
      rfl

/-- C4, witness at the filtered source indices 0, 2, 4 with the cursor on
source index 2: Up moves to source index 0, Down to source index 4, Home
and End to the first and last entries, and on the empty filtered list every
motion is a no-op. -/
theorem c4_motion_characterization_witness :
    (∀ m : Option Motion, move_cursor_pos m [] 2 = 2) ∧
    (move_cursor_pos none [0, 2, 4] 2 = 2) ∧
    (move_cursor_pos (some Motion.Home) [0, 2, 4] 2 = ([0, 2, 4] : List Nat).head?.getD 2) ∧
    (move_cursor_pos (some Motion.End) [0, 2, 4] 2 = ([0, 2, 4] : List Nat).getLast?.getD 2) ∧
    (move_cursor_pos (some Motion.Up) [0, 2, 4] 2 =
      ((([0, 2, 4] : List Nat).filter (fun s => decide (s < 2))).getLast?.orElse
        (fun _ => ([0, 2, 4] : List Nat).getLast?)).getD 2) ∧
    (move_cursor_pos (some Motion.Down) [0, 2, 4] 2 =
      ((([0, 2, 4] : List Nat).filter (fun s => decide (2 < s))).head?.orElse
        (fun _ => ([0, 2, 4] : List Nat).head?)).getD 2) :=
  c4_motion_characterization [0, 2, 4] 2 (by decide)

/-- C5: on a frame where the field neither holds focus nor just lost it
(and no focus gain occurred), the buffer persisted at the end of the frame
is `to_editable` of the bound value — whatever the previously persisted
buffer held and whatever the widget left in it, any drift is reset. -/
theorem c5_idle_buffer_resync {V : Type} (vi : Value V) (value : V)
    (stored : Option Str) (edited : Str → Str) (resp : Response)
    (h1 : resp.has_focus = false) (h2 : resp.lost_focus = false)
    (h3 : resp.gained_focus = false) :
    show_stored_text vi value stored edited resp = vi.to_editable value := by
  unfold show_stored_text reconcile_text
  rw [h1, h2]
  by_cases h : edited (stored.getD (vi.to_editable value)) ≠ vi.to_editable value <;>
    simp [h]
  simpa using h

/-- C5, witness: bound value "a" with a drifted stored buffer "xy" on an
idle frame ends the frame persisted as "a". -/
theorem c5_idle_buffer_resync_witness :
    show_stored_text stringValue [Char.ofNat 97] (some [Char.ofNat 120, Char.ofNat 121])
      (fun s => s) ⟨false, false, false⟩ = stringValue.to_editable [Char.ofNat 97] :=
  c5_idle_buffer_resync stringValue [Char.ofNat 97]
    (some [Char.ofNat 120, Char.ofNat 121]) (fun s => s) ⟨false, false, false⟩ rfl rfl rfl

/-- C6: on the frame where the field gains focus (a well-formed response:
gaining focus implies holding it) the buffer is cleared to the empty
string; that value is both what show_options filters against this frame
(lib.rs:80) and what is persisted (lib.rs:88). -/
theorem c6_focus_gain_clears {V : Type} (vi : Value V) (value : V)
    (stored : Option Str) (edited : Str → Str) (resp : Response)
    (hwf : resp.Wf) (hg : resp.gained_focus = true) :
    show_stored_text vi value stored edited resp = [] := by
  have hh : resp.has_focus = true := hwf hg
  unfold show_stored_text reconcile_text
  rw [hh, hg]
  simp

/-- C6, witness: gaining focus with prior buffer "xy" clears it. -/
theorem c6_focus_gain_clears_witness :
    show_stored_text stringValue [Char.ofNat 97] (some [Char.ofNat 120, Char.ofNat 121])
      (fun s => s) ⟨true, false, true⟩ = [] :=
  c6_focus_gain_clears stringValue [Char.ofNat 97]
    (some [Char.ofNat 120, Char.ofNat 121]) (fun s => s) ⟨true, false, true⟩
    (fun _ => rfl) rfl

/-- Continuation of a filtering pass: the result of running the loop over a
second list of options starting from the loop state a first pass ended in
(`pm` is the `prev_matches` count the first pass started from). -/
def show_options_loop_then {V : Type} (sel : V) (text : Str) (g : Bool)
    (l2 : List (ValueOption V)) (idx pm : Nat) (a : PassResult V) : PassResult V :=
  ⟨a.filtered ++ (show_options_loop sel text g l2 idx (pm + a.filtered.length)
      a.had_exact a.default_cursor_pos).filtered,
    (show_options_loop sel text g l2 idx (pm + a.filtered.length)
      a.had_exact a.default_cursor_pos).default_cursor_pos,
    (show_options_loop sel text g l2 idx (pm + a.filtered.length)
      a.had_exact a.default_cursor_pos).had_exact,
    a.results ++ (show_options_loop sel text g l2 idx (pm + a.filtered.length)
      a.had_exact a.default_cursor_pos).results⟩

set_option maxRecDepth 8192 in
/-- The filtering loop over an appended list is the loop over the first
part continued over the second: the second part starts at the shifted
source index, with `prev_matches` grown by the first part's retained count,
and with the first part's `had_exact` and default cursor. -/
theorem show_options_loop_append {V : Type} (sel : V) (text : Str) (g : Bool)
    (l1 l2 : List (ValueOption V)) (idx pm : Nat) (he : Bool) (dcp : Option Nat) :
    show_options_loop sel text g (l1 ++ l2) idx pm he dcp =
      show_options_loop_then sel text g l2 (idx + l1.length) pm
        (show_options_loop sel text g l1 idx pm he dcp) := by
  induction l1 generalizing idx pm he dcp with
  | nil => simp [show_options_loop, show_options_loop_then]
  | cons o t ih =>
    have e1 : idx + (t.length + 1) = idx + 1 + t.length := by omega
    rcases hr : o.filter_by_text text ⟨pm, he⟩ with - | - | -
    case Exact =>
      simp only [List.cons_append, show_options_loop, hr, List.append_eq]
      rw [ih]
      simp only [show_options_loop_then, List.length_cons, List.cons_append, e1]
      generalize show_options_loop sel text g t (idx + 1) (pm + 1) true
        (if (g && o.equals_value sel text) = true then some idx else dcp) = a
      have e2 : pm + (a.filtered.length + 1) = pm + 1 + a.filtered.length := by omega
      rw [e2]
    case Partial =>
      simp only [List.cons_append, show_options_loop, hr, List.append_eq]
      rw [ih]
      simp only [show_options_loop_then, List.length_cons, List.cons_append, e1]
      generalize show_options_loop sel text g t (idx + 1) (pm + 1) he
        (if (g && o.equals_value sel text) = true then some idx else dcp) = a
      have e2 : pm + (a.filtered.length + 1) = pm + 1 + a.filtered.length := by omega
      rw [e2]
    case None =>
      simp only [List.cons_append, show_options_loop, hr, List.append_eq]
      rw [ih]
      simp only [show_options_loop_then, List.length_cons, List.cons_append, e1]

/-- The final `had_exact` flag of the filtering loop holds iff it held
initially or some processed candidate was classified Exact. -/
theorem show_options_loop_had_exact {V : Type} (sel : V) (text : Str) (g : Bool)
    (l : List (ValueOption V)) (idx pm : Nat) (he : Bool) (dcp : Option Nat) :
    (show_options_loop sel text g l idx pm he dcp).had_exact =
      (he || (show_options_loop sel text g l idx pm he dcp).results.contains
        FilterResult.Exact) := by
  induction l generalizing idx pm he dcp with
  | nil => simp [show_options_loop]
  | cons o t ih =>
    rcases hr : o.filter_by_text text ⟨pm, he⟩ with - | - | - <;>
      simp only [show_options_loop, hr] <;>
      rw [ih] <;>
      simp [List.contains_cons]

/-- The filtering loop retains exactly the candidates classified Partial or
Exact: the retained count is the count of non-None results. -/
theorem show_options_loop_filtered_length {V : Type} (sel : V) (text : Str) (g : Bool)
    (l : List (ValueOption V)) (idx pm : Nat) (he : Bool) (dcp : Option Nat) :
    (show_options_loop sel text g l idx pm he dcp).filtered.length =
      (show_options_loop sel text g l idx pm he dcp).results.countP
        (fun r => decide (r ≠ FilterResult.None)) := by
  induction l generalizing idx pm he dcp with
  | nil => simp [show_options_loop]
  | cons o t ih =>
    rcases hr : o.filter_by_text text ⟨pm, he⟩ with - | - | - <;>
      simp only [show_options_loop, hr] <;>
      rw [List.countP_cons] <;>
      simp [ih]

/-- Every entry the filtering loop retains keeps its enumeration position:
its source index is at least the starting index, it is the option found at
the corresponding position of the processed list, and the retained source
indices are strictly increasing. -/
theorem show_options_loop_filtered_spec {V : Type} (sel : V) (text : Str) (g : Bool)
    (l : List (ValueOption V)) (idx pm : Nat) (he : Bool) (dcp : Option Nat) :
    (∀ d ∈ (show_options_loop sel text g l idx pm he dcp).filtered,
        idx ≤ d.source_index ∧ l.get? (d.source_index - idx) = some d.option) ∧
    List.Pairwise (· < ·)
      (srcIndices (show_options_loop sel text g l idx pm he dcp).filtered) := by
  induction l generalizing idx pm he dcp with
  | nil => simp [show_options_loop, srcIndices]
  | cons o t ih =>
    rcases hr : o.filter_by_text text ⟨pm, he⟩ with - | - | -
    case Exact =>
      simp only [show_options_loop, hr]
      obtain ⟨hmem, hpw⟩ := ih (idx + 1) (pm + 1) true
        (if (g && o.equals_value sel text) = true then some idx else dcp)
      constructor
      · intro d hd
        rcases List.mem_cons.mp hd with rfl | hd
        · simp
        · obtain ⟨h1, h2⟩ := hmem d hd
          refine ⟨by omega, ?_⟩
          rw [show d.source_index - idx = (d.source_index - (idx + 1)) + 1 by omega]
          simpa using h2
      · rw [srcIndices, List.map_cons, List.pairwise_cons]
        refine ⟨?_, hpw⟩
        intro s hs
        obtain ⟨d, hd, rfl⟩ := List.mem_map.mp hs
        have := (hmem d hd).1
        show idx < d.source_index
        omega
    case Partial =>
      simp only [show_options_loop, hr]
      obtain ⟨hmem, hpw⟩ := ih (idx + 1) (pm + 1) he
        (if (g && o.equals_value sel text) = true then some idx else dcp)
      constructor
      · intro d hd
        rcases List.mem_cons.mp hd with rfl | hd
        · simp
        · obtain ⟨h1, h2⟩ := hmem d hd
          refine ⟨by omega, ?_⟩
          rw [show d.source_index - idx = (d.source_index - (idx + 1)) + 1 by omega]
          simpa using h2
      · rw [srcIndices, List.map_cons, List.pairwise_cons]
        refine ⟨?_, hpw⟩
        intro s hs
        obtain ⟨d, hd, rfl⟩ := List.mem_map.mp hs
        have := (hmem d hd).1
        show idx < d.source_index
        omega
    case None =>
      simp only [show_options_loop, hr]
      obtain ⟨hmem, hpw⟩ := ih (idx + 1) pm he
        (if (g && o.equals_value sel text) = true then some idx else dcp)
      refine ⟨?_, hpw⟩
      intro d hd
      obtain ⟨h1, h2⟩ := hmem d hd
      refine ⟨by omega, ?_⟩
      rw [show d.source_index - idx = (d.source_index - (idx + 1)) + 1 by omega]
      simpa using h2

/-- When no candidate equals the bound value the default cursor survives
the loop unchanged. -/
theorem show_options_loop_dcp_none {V : Type} (sel : V) (text : Str) (g : Bool)
    (l : List (ValueOption V)) (idx pm : Nat) (he : Bool) (dcp : Option Nat)
    (h : ∀ o ∈ l, o.equals_value sel text = false) :
    (show_options_loop sel text g l idx pm he dcp).default_cursor_pos = dcp := by
  induction l generalizing idx pm he dcp with
  | nil => rfl
  | cons o t ih =>
    have ho : o.equals_value sel text = false := h o (List.mem_cons_self o t)
    have ht : ∀ o' ∈ t, o'.equals_value sel text = false :=
      fun o' h' => h o' (List.mem_cons_of_mem o h')
    rcases hr : o.filter_by_text text ⟨pm, he⟩ with - | - | - <;>
      simp only [show_options_loop, hr, ho, Bool.and_false] <;>
      exact ih _ _ _ _ ht

/-- When the popup just opened and some candidate equals the bound value,
the loop seeds the default cursor to the source index of such a candidate
(the filter classification plays no part in the search). -/
theorem show_options_loop_dcp_some {V : Type} (sel : V) (text : Str)
    (l : List (ValueOption V)) (idx pm : Nat) (he : Bool) (dcp : Option Nat)
    (h : ∃ o ∈ l, o.equals_value sel text = true) :
    ∃ j o, l.get? j = some o ∧ o.equals_value sel text = true ∧
      (show_options_loop sel text true l idx pm he dcp).default_cursor_pos =
        some (idx + j) := by
  induction l generalizing idx pm he dcp with
  | nil => simp at h
  | cons o t ih =>
    by_cases ht : ∃ o' ∈ t, o'.equals_value sel text = true
    · have key : ∀ pm' : Nat, ∀ he' : Bool, ∀ dcp' : Option Nat,
          ∃ j o', t.get? j = some o' ∧ o'.equals_value sel text = true ∧
            (show_options_loop sel text true t (idx + 1) pm' he' dcp').default_cursor_pos =
              some (idx + 1 + j) :=
        fun pm' he' dcp' => ih (idx + 1) pm' he' dcp' ht
      rcases hr : o.filter_by_text text ⟨pm, he⟩ with - | - | -
      · simp only [show_options_loop, hr]
        obtain ⟨j, o', h1, h2, h3⟩ := key (pm + 1) true
          (if (true && o.equals_value sel text) = true then some idx else dcp)
        exact ⟨j + 1, o', by simpa using h1, h2, by rw [h3]; congr 1; omega⟩
      · simp only [show_options_loop, hr]
        obtain ⟨j, o', h1, h2, h3⟩ := key (pm + 1) he
          (if (true && o.equals_value sel text) = true then some idx else dcp)
        exact ⟨j + 1, o', by simpa using h1, h2, by rw [h3]; congr 1; omega⟩
      · simp only [show_options_loop, hr]
        obtain ⟨j, o', h1, h2, h3⟩ := key pm he
          (if (true && o.equals_value sel text) = true then some idx else dcp)
        exact ⟨j + 1, o', by simpa using h1, h2, by rw [h3]; congr 1; omega⟩
    · have ho : o.equals_value sel text = true := by
        rcases h with ⟨o', ho', he'⟩
        rcases List.mem_cons.mp ho' with rfl | hmem
        · exact he'
        · exact absurd ⟨o', hmem, he'⟩ ht
      have htf : ∀ o' ∈ t, o'.equals_value sel text = false := by
        intro o' hmem
        cases hv : o'.equals_value sel text with
        | false => rfl
        | true => exact absurd ⟨o', hmem, hv⟩ ht
      refine ⟨0, o, rfl, ho, ?_⟩
      rcases hr : o.filter_by_text text ⟨pm, he⟩ with - | - | - <;>
        simp only [show_options_loop, hr, ho] <;>
        rw [show_options_loop_dcp_none _ _ _ _ _ _ _ _ htf] <;>
        simp

/-- C9: the filtered list produced by one filter pass has strictly
increasing source indices (source order preserved, no duplicates) — the
sortedness that makes the partition-point computations of display position
and Up/Down motion meaningful — and every retained entry keeps its
enumeration position: looking its source index up in the supplied option
list finds the very option. -/
theorem c9_filtered_strictly_increasing {V : Type} (sel : V) (text : Str) (g : Bool)
    (opts : List (ValueOption V)) :
    List.Pairwise (· < ·) (srcIndices (show_options_pass sel text g opts).filtered) ∧
    ∀ d ∈ (show_options_pass sel text g opts).filtered,
      opts.get? d.source_index = some d.option := by
  obtain ⟨hmem, hpw⟩ := show_options_loop_filtered_spec sel text g opts 0 0 false none
  refine ⟨hpw, ?_⟩
  intro d hd
  have h := (hmem d hd).2
  simpa using h

/-- C8: when the popup opens (gained focus) and some supplied candidate
equals the bound value, the cursor used this frame is seeded to the source
index of such a candidate, whatever cursor was persisted — the search runs
over every supplied candidate before any filtering decision is consulted.
With no equal candidate and nothing persisted the cursor defaults to
source index 0. -/
theorem c8_cursor_seeding {V : Type} (sel : V) (opts : List (ValueOption V))
    (text : Str) (persisted : Option Nat) :
    ((∃ o ∈ opts, o.equals_value sel text = true) →
      ∃ j o, opts.get? j = some o ∧ o.equals_value sel text = true ∧
        (show_options_pass sel text true opts).default_cursor_pos = some j ∧
        initial_cursor (show_options_pass sel text true opts).default_cursor_pos
          persisted = j) ∧
    ((∀ o ∈ opts, o.equals_value sel text = false) →
      (show_options_pass sel text true opts).default_cursor_pos = none ∧
      initial_cursor (show_options_pass sel text true opts).default_cursor_pos
        none = 0) := by
  constructor
  · intro hex
    obtain ⟨j, o, h1, h2, h3⟩ := show_options_loop_dcp_some sel text opts 0 0 false none hex
    rw [show (0 : Nat) + j = j by omega] at h3
    refine ⟨j, o, h1, h2, h3, ?_⟩
    show initial_cursor
      ((show_options_loop sel text true opts 0 0 false none).default_cursor_pos)
      persisted = j
    rw [h3]
    rfl
  · intro hall
    have h := show_options_loop_dcp_none sel text true opts 0 0 false none hall
    refine ⟨h, ?_⟩
    show initial_cursor
      ((show_options_loop sel text true opts 0 0 false none).default_cursor_pos)
      none = 0
    rw [h]
    rfl

/-- C8, witness: options ["z", "ab"] with bound value "ab" on the opening
frame seed the cursor to source index 1, overriding a persisted cursor 0;
options ["z"] with bound value "ab" and nothing persisted default to 0. -/
theorem c8_cursor_seeding_witness :
    ((∃ o ∈ [stringOption [Char.ofNat 122], stringOption [Char.ofNat 97, Char.ofNat 98]],
        o.equals_value [Char.ofNat 97, Char.ofNat 98] [] = true) →
      ∃ j o, [stringOption [Char.ofNat 122],
          stringOption [Char.ofNat 97, Char.ofNat 98]].get? j = some o ∧
        o.equals_value [Char.ofNat 97, Char.ofNat 98] [] = true ∧
        (show_options_pass [Char.ofNat 97, Char.ofNat 98] [] true
          [stringOption [Char.ofNat 122],
            stringOption [Char.ofNat 97, Char.ofNat 98]]).default_cursor_pos = some j ∧
        initial_cursor (show_options_pass [Char.ofNat 97, Char.ofNat 98] [] true
          [stringOption [Char.ofNat 122],
            stringOption [Char.ofNat 97, Char.ofNat 98]]).default_cursor_pos
          (some 0) = j) ∧
    ((∀ o ∈ [stringOption [Char.ofNat 122], stringOption [Char.ofNat 97, Char.ofNat 98]],
        o.equals_value [Char.ofNat 97, Char.ofNat 98] [] = false) →
      (show_options_pass [Char.ofNat 97, Char.ofNat 98] [] true
        [stringOption [Char.ofNat 122],
          stringOption [Char.ofNat 97, Char.ofNat 98]]).default_cursor_pos = none ∧
      initial_cursor (show_options_pass [Char.ofNat 97, Char.ofNat 98] [] true
        [stringOption [Char.ofNat 122],
          stringOption [Char.ofNat 97, Char.ofNat 98]]).default_cursor_pos none = 0) :=
  c8_cursor_seeding [Char.ofNat 97, Char.ofNat 98]
    [stringOption [Char.ofNat 122], stringOption [Char.ofNat 97, Char.ofNat 98]]
    [] (some 0)

/-- C2: appending the Custom pseudo-option after all real candidates, one
filter pass classifies it None when some earlier candidate was classified
Exact (the pseudo-option is dropped from the filtered list), Partial when
no earlier Exact but at least one earlier candidate was retained
(classified Partial or Exact), and Exact otherwise (in both latter cases it
is retained, at source index `opts.length`). The FilterState threaded to it
satisfies the stated invariants: the retained count equals the count of
earlier non-None classifications, and `had_exact` holds iff some earlier
candidate was classified Exact. -/
theorem c2_custom_entry_precedence {V : Type} (sel : CustomValue V)
    (opts : List (ValueOption (CustomValue V))) (text : Str) (g : Bool) :
    (show_options_pass sel text g
        (opts ++ [CustomOption.valueOption CustomOption.Custom])).results =
      (show_options_pass sel text g opts).results ++
        [if (show_options_pass sel text g opts).had_exact then FilterResult.None
         else if 0 < (show_options_pass sel text g opts).filtered.length then
           FilterResult.Partial
         else FilterResult.Exact] ∧
    (show_options_pass sel text g
        (opts ++ [CustomOption.valueOption CustomOption.Custom])).filtered =
      (show_options_pass sel text g opts).filtered ++
        (if (show_options_pass sel text g opts).had_exact then []
         else [⟨opts.length, CustomOption.valueOption CustomOption.Custom,
            (CustomOption.valueOption CustomOption.Custom).equals_value sel text⟩]) ∧
    (show_options_pass sel text g opts).filtered.length =
      (show_options_pass sel text g opts).results.countP
        (fun r => decide (r ≠ FilterResult.None)) ∧
    ((show_options_pass sel text g opts).had_exact = true ↔
      FilterResult.Exact ∈ (show_options_pass sel text g opts).results) := by
  have happ := show_options_loop_append sel text g opts
    [CustomOption.valueOption CustomOption.Custom] 0 0 false none
  have hlen3 := show_options_loop_filtered_length sel text g opts 0 0 false none
  have hhe4 := show_options_loop_had_exact sel text g opts 0 0 false none
  simp only [show_options_pass]
  rw [happ]
  simp only [show_options_loop_then]
  refine ⟨?_, ?_, hlen3, ?_⟩
  · by_cases hhe : (show_options_loop sel text g opts 0 0 false none).had_exact = true
    · simp [show_options_loop, CustomOption.valueOption, hhe]
    · by_cases hlen : 0 < (show_options_loop sel text g opts 0 0 false none).filtered.length
      · have hlen2 : ¬(show_options_loop sel text g opts 0 0 false none).filtered.length = 0 := by
          omega
        simp [show_options_loop, CustomOption.valueOption, hhe, hlen, hlen2]
      · have hlen2 : (show_options_loop sel text g opts 0 0 false none).filtered.length = 0 := by
          omega
        simp [show_options_loop, CustomOption.valueOption, hhe, hlen, hlen2]
  · by_cases hhe : (show_options_loop sel text g opts 0 0 false none).had_exact = true
    · simp [show_options_loop, CustomOption.valueOption, hhe]
    · by_cases hlen : 0 < (show_options_loop sel text g opts 0 0 false none).filtered.length
      · have hlen2 : ¬(show_options_loop sel text g opts 0 0 false none).filtered.length = 0 := by
          omega
        simp [show_options_loop, CustomOption.valueOption, hhe, hlen, hlen2]
      · have hlen2 : (show_options_loop sel text g opts 0 0 false none).filtered.length = 0 := by
          omega
        simp [show_options_loop, CustomOption.valueOption, hhe, hlen, hlen2]
  · rw [hhe4]
    simp [List.elem_iff]

end EguiEditableCombobox
